import Mathlib

/-!
Verification development for the caller ranking and call detail logic of a
patient monitoring dashboard front end. The two components embedded here are
the caller ranking engine (PatientList.tsx: sortCallers, handleSort, the
inline source filter and the fetchCallersAndScores load) and the call detail
reconciler (the PatientDetails component: call list deduplication, the
realtime insert merge, selection tracking and filterKeyQuestions).
-/

namespace TrevorDashboard

/-- Urgency level of a call, the fixed ordered set LOW < MEDIUM < IMMINENT. -/
inductive Urgency where
  | LOW
  | MEDIUM
  | IMMINENT
  deriving DecidableEq

/-- Source channel of an interaction. Modelled from the spec: the row types
come from lib/supabase, which is not part of the sources here; the spec fixes
the source channel to a fixed set (phone / chat), matched in the code against
the string literals "Phone" and "Chatbot". -/
inductive SourceChannel where
  | Phone
  | Chatbot
  deriving DecidableEq

/-- Call row. Modelled from the spec: the Call type is declared in
lib/supabase (not in the sources); the spec lists an id, the phone number of
the caller, the call timestamp, the duration, the source channel, the urgency
level and the transcript. Timestamps are modelled as integers (milliseconds
since the epoch); the code compares them only for equality and order. -/
structure Call where
  id : Nat
  phone_number : String
  call_timestamp : Int
  duration : Int
  urgency_level : Option Urgency
  source : Option SourceChannel
  transcript : Option String
  deriving DecidableEq

/-- Caller row as stored. Modelled from the spec: the Caller type is declared
in lib/supabase (not in the sources); the phone number is the identity, the
name is optional, and the last call timestamp orders the callers. -/
structure CallerRow where
  phone_number : String
  name : Option String
  last_call_timestamp : Int
  deriving DecidableEq

/-- Caller annotated with the derived fields attached at read time: the
urgency level and the source channel of the most recent call. This is the
element type of the callers state in PatientList. -/
structure Caller where
  phone_number : String
  name : Option String
  last_call_timestamp : Int
  urgency_level : Option Urgency
  last_source : Option SourceChannel
  deriving DecidableEq

/-- Insert merge from the realtime INSERT handler in the PatientDetails
component: the new call is prepended unless an existing entry shares its call
timestamp, in which case the list is returned unchanged. -/
def insertMergeCall (prevCalls : List Call) (newCall : Call) : List Call :=
  if prevCalls.any (fun call => call.call_timestamp == newCall.call_timestamp) then
    prevCalls
  else
    newCall :: prevCalls

/-- Selection update from the realtime INSERT handler: the source runs
setSelectedCall(current => current || newCall), keeping a present selection
and otherwise selecting the new call. -/
def selectOnInsert (current : Option Call) (newCall : Call) : Option Call :=
  match current with
  | some c => some c
  | none => some newCall

/-- Deduplication of the fetched call list in fetchCallerData of the
PatientDetails component: a left fold starting from the empty accumulator
that appends the current row only when no accumulated row shares its call
timestamp (the source tests acc.find for truthiness and pushes otherwise). -/
def dedupeCalls (callsData : List Call) : List Call :=
  callsData.foldl
    (fun acc current =>
      if acc.any (fun call => call.call_timestamp == current.call_timestamp) then acc
      else acc ++ [current])
    []

/-- One run of fetchCallerData of the PatientDetails component on the local
state: given the previous calls list, the previous selection and the outcome
of the backend fetch, return the new calls list, the new selection and the
error state. On a fetch error the calls and the selection are left unchanged
and the message is stored; on success the deduplicated list replaces the
calls, and the most recent call is selected only when that list is nonempty. -/
def fetchCallerData (prevCalls : List Call) (prevSelected : Option Call)
    (fetched : Except String (List Call)) :
    List Call × Option Call × Option String :=
  match fetched with
  | Except.error msg => (prevCalls, prevSelected, some msg)
  | Except.ok callsData =>
      let uniqueCalls := dedupeCalls callsData
      (uniqueCalls,
       if 0 < uniqueCalls.length then uniqueCalls.head? else prevSelected,
       none)

/-- Numeric urgency ranking used by sortCallers in PatientList. -/
def urgencyOrder : Urgency → Nat
  | Urgency.IMMINENT => 3
  | Urgency.MEDIUM => 2
  | Urgency.LOW => 1

/-- Sort key of a caller for the urgency sort: a missing urgency level is
treated as LOW before looking up the ranking. -/
def urgencyKey (c : Caller) : Nat :=
  urgencyOrder (c.urgency_level.getD Urgency.LOW)

/-- Sort field of PatientList. -/
inductive SortField where
  | urgency
  | lastCall
  deriving DecidableEq

/-- Sort order of PatientList. -/
inductive SortOrder where
  | asc
  | desc
  deriving DecidableEq

/-- Comparator relation of the ascending urgency sort: the comparator value
urgencyOrder[levelA] - urgencyOrder[levelB] is nonpositive. -/
def urgLe (a b : Caller) : Prop := urgencyKey a ≤ urgencyKey b

/-- Comparator relation of the descending urgency sort. -/
def urgGe (a b : Caller) : Prop := urgencyKey b ≤ urgencyKey a

/-- Comparator relation of the ascending last call sort: the comparator value
dateA - dateB is nonpositive. -/
def lastLe (a b : Caller) : Prop := a.last_call_timestamp ≤ b.last_call_timestamp

/-- Comparator relation of the descending last call sort. -/
def lastGe (a b : Caller) : Prop := b.last_call_timestamp ≤ a.last_call_timestamp

instance : DecidableRel urgLe := fun a b => Nat.decLe (urgencyKey a) (urgencyKey b)

instance : DecidableRel urgGe := fun a b => Nat.decLe (urgencyKey b) (urgencyKey a)

instance : DecidableRel lastLe := fun a b =>
  Int.decLe a.last_call_timestamp b.last_call_timestamp

instance : DecidableRel lastGe := fun a b =>
  Int.decLe b.last_call_timestamp a.last_call_timestamp

instance : IsTotal Caller urgLe := ⟨fun a b => Nat.le_total (urgencyKey a) (urgencyKey b)⟩

instance : IsTrans Caller urgLe := ⟨fun _ _ _ => Nat.le_trans⟩

instance : IsTotal Caller urgGe := ⟨fun a b => Nat.le_total (urgencyKey b) (urgencyKey a)⟩

instance : IsTrans Caller urgGe := ⟨fun _ _ _ h h2 => Nat.le_trans h2 h⟩

instance : IsTotal Caller lastLe := ⟨fun _ _ => Int.le_total _ _⟩

instance : IsTrans Caller lastLe := ⟨fun _ _ _ => Int.le_trans⟩

instance : IsTotal Caller lastGe := ⟨fun _ _ => Int.le_total _ _⟩

instance : IsTrans Caller lastGe := ⟨fun _ _ _ h h2 => Int.le_trans h2 h⟩

/-- Embedding of sortCallers in PatientList. The JS Array sort is a stable
sort by a comparator; every branch here compares by a total preorder (a
difference of mapped urgency keys or of timestamps), so the result is the
unique stable sort by the relation "the comparator value of the pair is
nonpositive", modelled by the stable insertionSort. -/
def sortCallers (callers : List Caller) (field : SortField) (order : SortOrder) : List Caller :=
  match field, order with
  | SortField.urgency, SortOrder.asc => List.insertionSort urgLe callers
  | SortField.urgency, SortOrder.desc => List.insertionSort urgGe callers
  | SortField.lastCall, SortOrder.asc => List.insertionSort lastLe callers
  | SortField.lastCall, SortOrder.desc => List.insertionSort lastGe callers

/-- Order toggling inside handleSort of PatientList. -/
def toggleOrder : SortOrder → SortOrder
  | SortOrder.asc => SortOrder.desc
  | SortOrder.desc => SortOrder.asc

/-- Embedding of handleSort of PatientList as a transition on the pair of
current sort field and sort order, applied to the clicked field: clicking the
active field keeps it and toggles the order, clicking the other field selects
it and resets the order to descending. -/
def handleSort (sortField : SortField) (sortOrder : SortOrder) (field : SortField) :
    SortField × SortOrder :=
  if sortField = field then (sortField, toggleOrder sortOrder)
  else (field, SortOrder.desc)

/-- Filter selection of PatientList. -/
inductive SourceFilter where
  | All
  | PhoneCall
  | Chatbot
  deriving DecidableEq

/-- Embedding of the inline filter applied to the callers state in
PatientList: All keeps every caller, the two channel values keep the callers
whose derived last source equals the channel. -/
def filterCallers (callers : List Caller) (filterSource : SourceFilter) : List Caller :=
  callers.filter fun caller =>
    match filterSource with
    | SourceFilter.All => true
    | SourceFilter.PhoneCall => caller.last_source == some SourceChannel.Phone
    | SourceFilter.Chatbot => caller.last_source == some SourceChannel.Chatbot

/-- Annotation of one caller row inside fetchCallersAndScores of PatientList.
The lookup argument is the backend query for the most recent call of the
phone number (ordered descending, limit one); none models a failed lookup,
whose error object the source ignores, leaving the data null. The optional
chains callsData?.[0]?.urgency_level and callsData?.[0]?.source || null
become Option binds; for an absent-or-channel value, x || null equals x. -/
def annotateCaller (lookup : String → Option (List Call)) (caller : CallerRow) : Caller :=
  let firstCall := (lookup caller.phone_number).bind List.head?
  { phone_number := caller.phone_number
    name := caller.name
    last_call_timestamp := caller.last_call_timestamp
    urgency_level := firstCall.bind Call.urgency_level
    last_source := firstCall.bind Call.source }

/-- Per caller fan out of fetchCallersAndScores of PatientList: every fetched
caller row is annotated, whether or not its own lookup failed. -/
def fetchCallersAndScores (callersData : List CallerRow)
    (lookup : String → Option (List Call)) : List Caller :=
  callersData.map (annotateCaller lookup)

/-- One run of the load of PatientList on the component state: given the
previous callers list, the selected id, the outcome of the callers fetch, the
per caller lookup and the current sort parameters, return the new callers
list, the logged error and the caller re-emitted through onSelect. On a fetch
error of the caller list the source logs the error and returns, leaving the
state untouched and emitting nothing. -/
def fetchCallersRun (prev : List Caller) (selectedId : Option String)
    (callersResult : Except String (List CallerRow))
    (lookup : String → Option (List Call))
    (field : SortField) (order : SortOrder) :
    List Caller × Option String × Option Caller :=
  match callersResult with
  | Except.error msg => (prev, some msg, none)
  | Except.ok callersData =>
      let sortedCallers := sortCallers (fetchCallersAndScores callersData lookup) field order
      (sortedCallers, none,
       selectedId.bind fun id => sortedCallers.find? fun c => c.phone_number == id)

/-- Splitting a transcript into lines at the newline character, the JS String
split used by filterKeyQuestions, with an explicit accumulator of the current
line read so far in reverse. -/
def splitNlAux : List Char → List Char → List String
  | [], acc => [String.mk acc.reverse]
  | c :: cs, acc =>
      if c = '\n' then String.mk acc.reverse :: splitNlAux cs []
      else splitNlAux cs (c :: acc)

/-- Splitting a string into its newline separated lines. -/
def splitNl (s : String) : List String := splitNlAux s.data []

/-- The JS startsWith check, over the character lists of the strings. -/
def strStartsWith (s tag : String) : Bool := List.isPrefixOf tag.data s.data

/-- The JS trim, dropping leading and trailing whitespace characters. -/
def trimChars (cs : List Char) : List Char :=
  ((cs.dropWhile Char.isWhitespace).reverse.dropWhile Char.isWhitespace).reverse

/-- Canonical key questions tracked by filterKeyQuestions, in the fixed order
of the source list. -/
def keyQuestions : List String :=
  ["How are you feeling?",
   "Have you had any thoughts of suicide in the last few days, including today?",
   "Have you done anything to harm yourself today?",
   "Do you need urgent help?"]

/-- The JS includes check over character lists: the needle occurs as a
contiguous run inside the hay. -/
def containsSub : List Char → List Char → Bool
  | [], needle => needle.isEmpty
  | hay@(_ :: rest), needle => List.isPrefixOf needle hay || containsSub rest needle

/-- For an AI tagged line, the first canonical question whose text is
contained in the line message, none otherwise. The message is the line with
the first occurrence of the three character tag removed and then trimmed; as
the line starts with the tag, that first occurrence is the prefix, so the
removal drops the first three characters. -/
def questionOf (line : String) : Option String :=
  if strStartsWith line "AI:" then
    let aiMessage := trimChars (line.data.drop 3)
    keyQuestions.find? fun q => containsSub aiMessage q.data
  else
    none

/-- The user response following a matched question: the next line alone, when
it is User tagged. -/
def userFollower : List String → List String
  | [] => []
  | next :: _ => if strStartsWith next "User:" then [next] else []

/-- Main loop of filterKeyQuestions, carrying the set of already found
questions. The user response line stays in the list handed to the recursive
call, as in the source, where the loop index does not skip it; a User tagged
line is never AI tagged, so the recursive call never emits it again. -/
def fkqLoop : List String → List String → List String
  | [], _ => []
  | line :: rest, foundQuestions =>
      match questionOf line with
      | some q =>
          if foundQuestions.contains q then fkqLoop rest foundQuestions
          else line :: (userFollower rest ++ fkqLoop rest (q :: foundQuestions))
      | none => fkqLoop rest foundQuestions

/-- Joining lines with the newline character, the JS Array join. -/
def joinNl : List String → String
  | [] => ""
  | [s] => s
  | s :: rest => s ++ "\n" ++ joinNl rest

/-- Embedding of filterKeyQuestions of the PatientDetails component: split
the transcript into lines, run the scanning loop with no question found yet,
and join the emitted lines back with newlines. -/
def filterKeyQuestions (transcript : String) : String :=
  joinNl (fkqLoop (splitNl transcript) [])

/-- Reference recursion for the deduplication fold: keep a row when its call
timestamp is not in the seen set, extending the seen set with each kept
timestamp. Used to reason about dedupeCalls by structural induction. -/
def keepFirstByTs (seen : List Int) : List Call → List Call
  | [] => []
  | c :: rest =>
      if c.call_timestamp ∈ seen then keepFirstByTs seen rest
      else c :: keepFirstByTs (c.call_timestamp :: seen) rest

/-- Sample call with a given id and call timestamp, all other fields empty. -/
def mkCall (i : Nat) (ts : Int) : Call :=
  { id := i
    phone_number := "1"
    call_timestamp := ts
    duration := 0
    urgency_level := none
    source := none
    transcript := none }

/-- Sample caller of the sorting scenario: phone 1, last call on day two,
urgency MEDIUM. Day two is modelled by timestamp 2. -/
def caller1 : Caller :=
  { phone_number := "1"
    name := none
    last_call_timestamp := 2
    urgency_level := some Urgency.MEDIUM
    last_source := none }

/-- Sample caller of the sorting scenario: phone 2, last call on day one,
urgency IMMINENT. Day one is modelled by timestamp 1. -/
def caller2 : Caller :=
  { phone_number := "2"
    name := none
    last_call_timestamp := 1
    urgency_level := some Urgency.IMMINENT
    last_source := none }

/-- Sample caller row whose most recent call lookup fails. -/
def rowA : CallerRow :=
  { phone_number := "1", name := none, last_call_timestamp := 2 }

/-- Sample caller row whose most recent call lookup succeeds. -/
def rowB : CallerRow :=
  { phone_number := "2", name := none, last_call_timestamp := 1 }

/-- Sample most recent call of the caller row with phone number 2. -/
def callB : Call :=
  { id := 20
    phone_number := "2"
    call_timestamp := 5
    duration := 0
    urgency_level := some Urgency.IMMINENT
    source := some SourceChannel.Phone
    transcript := none }

/-- Sample lookup: the query fails for every phone number except 2, whose
most recent call is callB. -/
def lookup0 : String → Option (List Call) :=
  fun ph => if ph = "2" then some [callB] else none

/-- C5: handling a new call insert notification keeps an existing selection
unchanged, and sets the new call as the selection when none is selected. -/
theorem selectOnInsert_spec (c newCall : Call) :
    selectOnInsert (some c) newCall = some c
    ∧ selectOnInsert none newCall = some newCall :=
  ⟨rfl, rfl⟩

/-- C9: when the fetch of the caller list fails, the run logs the error
message, leaves the caller list state unchanged and re-emits no selection. -/
theorem fetchCallersRun_error (prev : List Caller) (selectedId : Option String)
    (msg : String) (lookup : String → Option (List Call))
    (field : SortField) (order : SortOrder) :
    fetchCallersRun prev selectedId (Except.error msg) lookup field order
      = (prev, some msg, none) :=
  rfl

/-- C4: the insert merge leaves the list unchanged when an entry shares the
new call timestamp, otherwise prepends the new call, and applying it twice
with the same payload equals applying it once. -/
theorem insertMergeCall_spec (l : List Call) (c : Call) :
    ((∃ d ∈ l, d.call_timestamp = c.call_timestamp) → insertMergeCall l c = l)
    ∧ ((∀ d ∈ l, d.call_timestamp ≠ c.call_timestamp) → insertMergeCall l c = c :: l)
    ∧ insertMergeCall (insertMergeCall l c) c = insertMergeCall l c := by
  refine ⟨?_, ?_, ?_⟩
  · rintro ⟨d, hd, he⟩
    have hb : l.any (fun call => call.call_timestamp == c.call_timestamp) = true :=
      List.any_eq_true.mpr ⟨d, hd, by simpa using he⟩
    simp [insertMergeCall, hb]
  · intro h
    have hb : l.any (fun call => call.call_timestamp == c.call_timestamp) = false := by
      rw [List.any_eq_false]
      intro d hd
      simpa using h d hd
    simp [insertMergeCall, hb]
  · by_cases hb : l.any (fun call => call.call_timestamp == c.call_timestamp) = true
    · simp [insertMergeCall, hb]
    · simp [insertMergeCall, hb]

/-- Witness for the insert merge theorem at concrete inputs: a list that
already holds the timestamp is unchanged, a fresh timestamp is prepended. -/
theorem insertMergeCall_spec_witness :
    insertMergeCall [mkCall 10 2] (mkCall 11 2) = [mkCall 10 2]
    ∧ insertMergeCall [mkCall 10 2] (mkCall 12 1) = mkCall 12 1 :: [mkCall 10 2] :=
  ⟨(insertMergeCall_spec [mkCall 10 2] (mkCall 11 2)).1 ⟨mkCall 10 2, by decide, by decide⟩,
   (insertMergeCall_spec [mkCall 10 2] (mkCall 12 1)).2.1 (by decide)⟩

/-- C2: each sortCallers branch returns a permutation of the input sorted by
the branch comparator (mapped urgency keys with LOW equal to one, MEDIUM to
two, IMMINENT to three, a missing level ranked as LOW, or the last call
timestamps), and the two element scenario sorts as the spec states. -/
theorem sortCallers_spec (l : List Caller) :
    (List.Perm (sortCallers l SortField.urgency SortOrder.asc) l
      ∧ List.Sorted urgLe (sortCallers l SortField.urgency SortOrder.asc))
    ∧ (List.Perm (sortCallers l SortField.urgency SortOrder.desc) l
      ∧ List.Sorted urgGe (sortCallers l SortField.urgency SortOrder.desc))
    ∧ (List.Perm (sortCallers l SortField.lastCall SortOrder.asc) l
      ∧ List.Sorted lastLe (sortCallers l SortField.lastCall SortOrder.asc))
    ∧ (List.Perm (sortCallers l SortField.lastCall SortOrder.desc) l
      ∧ List.Sorted lastGe (sortCallers l SortField.lastCall SortOrder.desc))
    ∧ urgencyOrder Urgency.LOW = 1
    ∧ urgencyOrder Urgency.MEDIUM = 2
    ∧ urgencyOrder Urgency.IMMINENT = 3
    ∧ (∀ c : Caller, urgencyKey { c with urgency_level := none } = urgencyOrder Urgency.LOW)
    ∧ sortCallers [caller1, caller2] SortField.urgency SortOrder.desc = [caller2, caller1]
    ∧ sortCallers [caller1, caller2] SortField.lastCall SortOrder.desc = [caller1, caller2] := by
  refine ⟨⟨?_, ?_⟩, ⟨?_, ?_⟩, ⟨?_, ?_⟩, ⟨?_, ?_⟩, rfl, rfl, rfl, fun c => rfl, ?_, ?_⟩
  · exact List.perm_insertionSort urgLe l
  · exact List.sorted_insertionSort urgLe l
  · exact List.perm_insertionSort urgGe l
  · exact List.sorted_insertionSort urgGe l
  · exact List.perm_insertionSort lastLe l
  · exact List.sorted_insertionSort lastLe l
  · exact List.perm_insertionSort lastGe l
  · exact List.sorted_insertionSort lastGe l
  · decide
  · decide

/-- C6: filtering by All is the identity, filtering by a channel keeps only
callers whose derived source matches that channel, and filtering always
yields a sublist, hence keeps the relative order of the retained elements,
also when applied after sorting. -/
theorem filterCallers_spec (l : List Caller) (f : SourceFilter)
    (field : SortField) (order : SortOrder) :
    filterCallers l SourceFilter.All = l
    ∧ (filterCallers l SourceFilter.PhoneCall).all
        (fun c => c.last_source == some SourceChannel.Phone) = true
    ∧ (filterCallers l SourceFilter.Chatbot).all
        (fun c => c.last_source == some SourceChannel.Chatbot) = true
    ∧ List.Sublist (filterCallers l f) l
    ∧ List.Sublist (filterCallers (sortCallers l field order) f) (sortCallers l field order) := by
  refine ⟨?_, ?_, ?_, ?_, ?_⟩
  · simp [filterCallers]
  · rw [List.all_eq_true]
    intro x hx
    exact (List.mem_filter.mp hx).2
  · rw [List.all_eq_true]
    intro x hx
    exact (List.mem_filter.mp hx).2
  · exact List.filter_sublist l
  · exact List.filter_sublist (sortCallers l field order)

/-- The reference recursion only depends on the seen set up to membership. -/
theorem keepFirstByTs_congr :
    ∀ (l : List Call) (s t : List Int), (∀ x, x ∈ s ↔ x ∈ t) →
      keepFirstByTs s l = keepFirstByTs t l := by
  intro l
  induction l with
  | nil => intro s t _; rfl
  | cons c rest ih =>
      intro s t hst
      by_cases h : c.call_timestamp ∈ s
      · rw [keepFirstByTs, keepFirstByTs, if_pos h, if_pos ((hst _).mp h)]
        exact ih s t hst
      · rw [keepFirstByTs, keepFirstByTs, if_neg h, if_neg (fun ht => h ((hst _).mpr ht))]
        refine congrArg (c :: ·) (ih _ _ fun x => ?_)
        simp only [List.mem_cons]
        exact or_congr Iff.rfl (hst x)

/-- The deduplication fold from any accumulator is the accumulator followed
by the reference recursion seeded with the accumulated timestamps. -/
theorem dedupe_foldl_eq :
    ∀ (callsData : List Call) (acc : List Call),
      callsData.foldl
        (fun acc current =>
          if acc.any (fun call => call.call_timestamp == current.call_timestamp) then acc
          else acc ++ [current]) acc
      = acc ++ keepFirstByTs (acc.map Call.call_timestamp) callsData := by
  intro callsData
  induction callsData with
  | nil => intro acc; simp [keepFirstByTs]
  | cons c rest ih =>
      intro acc
      by_cases h : acc.any (fun call => call.call_timestamp == c.call_timestamp) = true
      · have hmem : c.call_timestamp ∈ acc.map Call.call_timestamp := by
          obtain ⟨d, hd, he⟩ := List.any_eq_true.mp h
          exact List.mem_map.mpr ⟨d, hd, by simpa using he⟩
        rw [List.foldl_cons, if_pos h, ih acc, keepFirstByTs, if_pos hmem]
      · have hmem : c.call_timestamp ∉ acc.map Call.call_timestamp := by
          intro hc
          obtain ⟨d, hd, he⟩ := List.mem_map.mp hc
          exact h (List.any_eq_true.mpr ⟨d, hd, by simpa using he⟩)
        rw [List.foldl_cons, if_neg h, ih (acc ++ [c]), keepFirstByTs, if_neg hmem,
          List.append_cons acc c (keepFirstByTs _ rest)]
        refine congrArg (fun z => acc ++ [c] ++ z) ?_
        rw [List.map_append]
        refine keepFirstByTs_congr rest _ _ fun x => ?_
        simp only [List.mem_append, List.mem_cons, List.map_cons, List.map_nil,
          List.mem_singleton]
        tauto

/-- The deduplication equals the reference recursion with nothing seen. -/
theorem dedupeCalls_eq_keepFirstByTs (callsData : List Call) :
    dedupeCalls callsData = keepFirstByTs [] callsData := by
  rw [dedupeCalls, dedupe_foldl_eq callsData []]
  rfl

/-- Every call kept by the reference recursion has a timestamp outside the
seen set. -/
theorem keepFirstByTs_not_seen :
    ∀ (l : List Call) (seen : List Int) (c : Call),
      c ∈ keepFirstByTs seen l → c.call_timestamp ∉ seen := by
  intro l
  induction l with
  | nil => intro seen c hc; simp [keepFirstByTs] at hc
  | cons a rest ih =>
      intro seen c hc
      by_cases h : a.call_timestamp ∈ seen
      · rw [keepFirstByTs, if_pos h] at hc
        exact ih seen c hc
      · rw [keepFirstByTs, if_neg h] at hc
        rcases List.mem_cons.mp hc with rfl | hc
        · exact h
        · intro hs
          exact ih _ c hc (List.mem_cons_of_mem _ hs)

/-- The timestamps kept by the reference recursion have no duplicates. -/
theorem keepFirstByTs_nodup :
    ∀ (l : List Call) (seen : List Int),
      ((keepFirstByTs seen l).map Call.call_timestamp).Nodup := by
  intro l
  induction l with
  | nil => intro seen; simp [keepFirstByTs]
  | cons a rest ih =>
      intro seen
      by_cases h : a.call_timestamp ∈ seen
      · rw [keepFirstByTs, if_pos h]
        exact ih seen
      · rw [keepFirstByTs, if_neg h]
        rw [List.map_cons, List.nodup_cons]
        refine ⟨fun hc => ?_, ih _⟩
        obtain ⟨d, hd, he⟩ := List.mem_map.mp hc
        have := keepFirstByTs_not_seen rest _ d hd
        exact this (he ▸ List.mem_cons_self _ _)

/-- Membership of a timestamp among the kept calls: kept exactly when it is
not already seen and occurs in the input. -/
theorem keepFirstByTs_mem_ts :
    ∀ (l : List Call) (seen : List Int) (t : Int),
      t ∈ (keepFirstByTs seen l).map Call.call_timestamp
        ↔ (t ∉ seen ∧ t ∈ l.map Call.call_timestamp) := by
  intro l
  induction l with
  | nil => intro seen t; simp [keepFirstByTs]
  | cons a rest ih =>
      intro seen t
      by_cases h : a.call_timestamp ∈ seen
      · rw [keepFirstByTs, if_pos h, ih seen t, List.map_cons, List.mem_cons]
        constructor
        · rintro ⟨hns, hm⟩
          exact ⟨hns, Or.inr hm⟩
        · rintro ⟨hns, ht | hm⟩
          · exact absurd (ht ▸ h) hns
          · exact ⟨hns, hm⟩
      · rw [keepFirstByTs, if_neg h, List.map_cons, List.mem_cons, ih _ t,
          List.map_cons, List.mem_cons, List.mem_cons]
        constructor
        · rintro (rfl | ⟨hns, hm⟩)
          · exact ⟨h, Or.inl rfl⟩
          · exact ⟨fun hs => hns (Or.inr hs), Or.inr hm⟩
        · rintro ⟨hns, ht | hm⟩
          · exact Or.inl ht
          · by_cases ht : t = a.call_timestamp
            · exact Or.inl ht
            · exact Or.inr ⟨fun hs => hs.elim ht hns, hm⟩

/-- Every kept call is the first input call carrying its timestamp. -/
theorem keepFirstByTs_find :
    ∀ (l : List Call) (seen : List Int) (c : Call),
      c ∈ keepFirstByTs seen l →
        l.find? (fun d => d.call_timestamp == c.call_timestamp) = some c := by
  intro l
  induction l with
  | nil => intro seen c hc; simp [keepFirstByTs] at hc
  | cons a rest ih =>
      intro seen c hc
      by_cases h : a.call_timestamp ∈ seen
      · rw [keepFirstByTs, if_pos h] at hc
        have hne : a.call_timestamp ≠ c.call_timestamp := by
          intro he
          exact keepFirstByTs_not_seen rest seen c hc (he ▸ h)
        rw [List.find?_cons_of_neg _ (by simpa using hne)]
        exact ih seen c hc
      · rw [keepFirstByTs, if_neg h] at hc
        rcases List.mem_cons.mp hc with rfl | hc
        · rw [List.find?_cons_of_pos _ (by simp)]
        · have hns := keepFirstByTs_not_seen rest _ c hc
          have hne : a.call_timestamp ≠ c.call_timestamp := by
            intro he
            exact hns (he ▸ List.mem_cons_self _ _)
          rw [List.find?_cons_of_neg _ (by simpa using hne)]
          exact ih _ c hc

/-- The reference recursion returns a sublist of its input. -/
theorem keepFirstByTs_sublist :
    ∀ (l : List Call) (seen : List Int), List.Sublist (keepFirstByTs seen l) l := by
  intro l
  induction l with
  | nil => intro seen; simp [keepFirstByTs]
  | cons a rest ih =>
      intro seen
      by_cases h : a.call_timestamp ∈ seen
      · rw [keepFirstByTs, if_pos h]
        exact List.Sublist.cons a (ih seen)
      · rw [keepFirstByTs, if_neg h]
        exact List.Sublist.cons₂ a (ih _)

/-- C3: deduplication keeps exactly one entry per distinct call timestamp of
the input, each kept entry is the first input entry with its timestamp, the
input order is preserved, and the three element scenario with a duplicated
later timestamp keeps the first occurrence. -/
theorem dedupeCalls_spec (calls : List Call) :
    ((dedupeCalls calls).map Call.call_timestamp).Nodup
    ∧ (∀ t, t ∈ (dedupeCalls calls).map Call.call_timestamp
        ↔ t ∈ calls.map Call.call_timestamp)
    ∧ (∀ c ∈ dedupeCalls calls,
        calls.find? (fun d => d.call_timestamp == c.call_timestamp) = some c)
    ∧ List.Sublist (dedupeCalls calls) calls
    ∧ dedupeCalls [mkCall 10 2, mkCall 11 2, mkCall 12 1] = [mkCall 10 2, mkCall 12 1] := by
  rw [dedupeCalls_eq_keepFirstByTs]
  refine ⟨keepFirstByTs_nodup calls [], fun t => ?_, ?_, keepFirstByTs_sublist calls [], by decide⟩
  · rw [keepFirstByTs_mem_ts calls [] t]
    simp
  · intro c hc
    exact keepFirstByTs_find calls [] c hc

/-- Witness for the deduplication theorem: the first kept entry of the
scenario is found first in the input by its timestamp. -/
theorem dedupeCalls_spec_witness :
    mkCall 10 2 ∈ dedupeCalls [mkCall 10 2, mkCall 11 2, mkCall 12 1]
    ∧ ([mkCall 10 2, mkCall 11 2, mkCall 12 1].find?
        (fun d => d.call_timestamp == (mkCall 10 2).call_timestamp)) = some (mkCall 10 2) :=
  ⟨by decide,
   (dedupeCalls_spec [mkCall 10 2, mkCall 11 2, mkCall 12 1]).2.2.1 (mkCall 10 2) (by decide)⟩

/-- C10: a successful load with zero calls leaves the previous selection in
place, and a successful load with at least one call selects the head of the
deduplicated list. -/
theorem fetchCallerData_selection (prevCalls : List Call) (prevSelected : Option Call)
    (callsData : List Call) :
    (fetchCallerData prevCalls prevSelected (Except.ok [])).2.1 = prevSelected
    ∧ (callsData ≠ [] →
        (fetchCallerData prevCalls prevSelected (Except.ok callsData)).2.1
          = (dedupeCalls callsData).head?) := by
  refine ⟨rfl, fun h => ?_⟩
  obtain ⟨c, rest, rfl⟩ := List.exists_cons_of_ne_nil h
  have hne : dedupeCalls (c :: rest) = c :: keepFirstByTs [c.call_timestamp] rest := by
    rw [dedupeCalls_eq_keepFirstByTs, keepFirstByTs, if_neg (List.not_mem_nil _)]
  have hlen : 0 < (dedupeCalls (c :: rest)).length := by
    rw [hne]
    exact Nat.succ_pos _
  simp [fetchCallerData, hlen]

/-- Witness for the load selection theorem at a one call input. -/
theorem fetchCallerData_selection_witness :
    ([mkCall 10 2] : List Call) ≠ []
    ∧ (fetchCallerData [] (some (mkCall 12 1)) (Except.ok [mkCall 10 2])).2.1
        = (dedupeCalls [mkCall 10 2]).head? :=
  ⟨by decide,
   (fetchCallerData_selection [] (some (mkCall 12 1)) [mkCall 10 2]).2 (by decide)⟩

/-- A pointwise property of a map yields the positional relation between a
list and its image. -/
theorem forall₂_map_self {α : Type} {β : Type} (R : α → β → Prop) (f : α → β) :
    ∀ (l : List α), (∀ a ∈ l, R a (f a)) → List.Forall₂ R l (l.map f) := by
  intro l
  induction l with
  | nil => intro _; exact List.Forall₂.nil
  | cons a rest ih =>
      intro hp
      exact List.Forall₂.cons (hp a (List.mem_cons_self a rest))
        (ih fun b hb => hp b (List.mem_cons_of_mem a hb))

/-- C8: the load annotates every fetched caller row positionally, keeping the
identity fields; a caller whose most recent call lookup failed still appears,
with absent urgency level and absent source, while a caller whose lookup
returned a most recent call carries that call urgency level and source. -/
theorem fetchCallersAndScores_spec (callersData : List CallerRow)
    (lookup : String → Option (List Call)) :
    List.Forall₂
      (fun row c =>
        c.phone_number = row.phone_number
        ∧ c.name = row.name
        ∧ c.last_call_timestamp = row.last_call_timestamp
        ∧ (lookup row.phone_number = none → c.urgency_level = none ∧ c.last_source = none)
        ∧ (∀ calls call, lookup row.phone_number = some calls → calls.head? = some call →
            c.urgency_level = call.urgency_level ∧ c.last_source = call.source))
      callersData (fetchCallersAndScores callersData lookup) := by
  refine forall₂_map_self _ _ callersData fun row _ => ?_
  refine ⟨rfl, rfl, rfl, fun hfail => ?_, fun calls call hok hhead => ?_⟩
  · constructor <;> simp [annotateCaller, hfail]
  · constructor <;> simp [annotateCaller, hok, hhead]

/-- Witness for the load annotation theorem at a two caller input where the
first lookup fails and the second returns one call. -/
theorem fetchCallersAndScores_spec_witness :
    List.Forall₂
      (fun row c =>
        c.phone_number = row.phone_number
        ∧ c.name = row.name
        ∧ c.last_call_timestamp = row.last_call_timestamp
        ∧ (lookup0 row.phone_number = none → c.urgency_level = none ∧ c.last_source = none)
        ∧ (∀ calls call, lookup0 row.phone_number = some calls → calls.head? = some call →
            c.urgency_level = call.urgency_level ∧ c.last_source = call.source))
      [rowA, rowB] (fetchCallersAndScores [rowA, rowB] lookup0) :=
  fetchCallersAndScores_spec [rowA, rowB] lookup0

/-- C7: on a caller list with pairwise distinct mapped urgency keys the
descending urgency sort is exactly the reverse of the ascending one, toggling
the order twice restores the original sorted list, clicking the active field
toggles the order and clicking the other field resets it to descending. -/
theorem sortToggle_spec (l : List Caller) (h : (l.map urgencyKey).Nodup)
    (f f2 : SortField) (o : SortOrder) :
    sortCallers l SortField.urgency SortOrder.desc
        = (sortCallers l SortField.urgency SortOrder.asc).reverse
    ∧ toggleOrder (toggleOrder o) = o
    ∧ sortCallers l f (toggleOrder (toggleOrder o)) = sortCallers l f o
    ∧ handleSort f o f = (f, toggleOrder o)
    ∧ (f ≠ f2 → handleSort f o f2 = (f2, SortOrder.desc)) := by
  have htog : toggleOrder (toggleOrder o) = o := by cases o <;> rfl
  refine ⟨?_, htog, by rw [htog], by simp [handleSort], fun hne => by simp [handleSort, hne]⟩
  show List.insertionSort urgGe l = (List.insertionSort urgLe l).reverse
  have permD : List.Perm (List.insertionSort urgGe l) l := List.perm_insertionSort urgGe l
  have permA : List.Perm (List.insertionSort urgLe l) l := List.perm_insertionSort urgLe l
  have permRev : List.Perm (List.insertionSort urgLe l).reverse l :=
    (List.reverse_perm (List.insertionSort urgLe l)).trans permA
  have hperm : List.Perm (List.insertionSort urgGe l) (List.insertionSort urgLe l).reverse :=
    permD.trans permRev.symm
  have sortedD : List.Pairwise urgGe (List.insertionSort urgGe l) :=
    List.sorted_insertionSort urgGe l
  have sortedRev : List.Pairwise urgGe (List.insertionSort urgLe l).reverse := by
    rw [List.pairwise_reverse]
    exact (List.sorted_insertionSort urgLe l).imp fun hab => hab
  have ndD : ((List.insertionSort urgGe l).map urgencyKey).Nodup :=
    (List.Perm.nodup_iff (permD.map urgencyKey)).mpr h
  have ndRev : ((List.insertionSort urgLe l).reverse.map urgencyKey).Nodup :=
    (List.Perm.nodup_iff (permRev.map urgencyKey)).mpr h
  have neD : List.Pairwise (fun a b => urgencyKey a ≠ urgencyKey b)
      (List.insertionSort urgGe l) := List.pairwise_map.mp ndD
  have neRev : List.Pairwise (fun a b => urgencyKey a ≠ urgencyKey b)
      (List.insertionSort urgLe l).reverse := List.pairwise_map.mp ndRev
  have strictD : List.Pairwise (fun a b : Caller => urgencyKey b < urgencyKey a)
      (List.insertionSort urgGe l) :=
    (sortedD.and neD).imp fun hab => lt_of_le_of_ne hab.1 fun e => hab.2 e.symm
  have strictRev : List.Pairwise (fun a b : Caller => urgencyKey b < urgencyKey a)
      (List.insertionSort urgLe l).reverse :=
    (sortedRev.and neRev).imp fun hab => lt_of_le_of_ne hab.1 fun e => hab.2 e.symm
  haveI : IsAntisymm Caller (fun a b : Caller => urgencyKey b < urgencyKey a) :=
    ⟨fun a b h1 h2 => absurd (Nat.lt_trans h1 h2) (Nat.lt_irrefl _)⟩
  exact List.eq_of_perm_of_sorted hperm strictD strictRev

/-- Witness for the sort toggle theorem on the two sample callers, whose
mapped urgency keys two and three are distinct. -/
theorem sortToggle_spec_witness :
    ([caller1, caller2].map urgencyKey).Nodup
    ∧ SortField.urgency ≠ SortField.lastCall
    ∧ sortCallers [caller1, caller2] SortField.urgency SortOrder.desc
        = (sortCallers [caller1, caller2] SortField.urgency SortOrder.asc).reverse
    ∧ handleSort SortField.urgency SortOrder.asc SortField.lastCall
        = (SortField.lastCall, SortOrder.desc) := by
  refine ⟨by decide, by decide, ?_, ?_⟩
  · exact (sortToggle_spec [caller1, caller2] (by decide)
      SortField.urgency SortField.lastCall SortOrder.asc).1
  · exact (sortToggle_spec [caller1, caller2] (by decide)
      SortField.urgency SortField.lastCall SortOrder.asc).2.2.2.2 (by decide)

/-- A User tagged line is not AI tagged: the two tags differ already on the
first character. -/
theorem user_not_ai (line : String) (h : strStartsWith line "User:" = true) :
    strStartsWith line "AI:" = false := by
  unfold strStartsWith at h ⊢
  have hu : "User:".data = ['U', 's', 'e', 'r', ':'] := rfl
  have ha : "AI:".data = ['A', 'I', ':'] := rfl
  rw [hu] at h
  rw [ha]
  cases hd : line.data with
  | nil => rfl
  | cons c cs =>
      rw [hd] at h
      have h' : (('U' == c) && List.isPrefixOf ['s', 'e', 'r', ':'] cs) = true := h
      have hc : c = 'U' := (beq_iff_eq.mp ((Bool.and_eq_true _ _).mp h').1).symm
      subst hc
      rfl

/-- A User tagged line matches no question, because the matching first checks
the AI tag. -/
theorem questionOf_user (line : String) (h : strStartsWith line "User:" = true) :
    questionOf line = none := by
  simp [questionOf, user_not_ai line h]

/-- The loop drops a line matching no question. -/
theorem fkqLoop_cons_none (line : String) (rest found : List String)
    (hq : questionOf line = none) :
    fkqLoop (line :: rest) found = fkqLoop rest found := by
  simp only [fkqLoop, hq]

/-- The loop drops a repeat occurrence of an already found question. -/
theorem fkqLoop_cons_found (line : String) (rest found : List String) (q : String)
    (hq : questionOf line = some q) (hf : found.contains q = true) :
    fkqLoop (line :: rest) found = fkqLoop rest found := by
  simp only [fkqLoop, hq, hf, if_true]

/-- The loop emits a line matching a fresh question, together with the User
tagged follower when present, and goes on with the question marked found. -/
theorem fkqLoop_cons_new (line : String) (rest found : List String) (q : String)
    (hq : questionOf line = some q) (hf : found.contains q = false) :
    fkqLoop (line :: rest) found
      = line :: (userFollower rest ++ fkqLoop rest (q :: found)) := by
  simp only [fkqLoop, hq, hf, Bool.false_eq_true, if_false]

/-- The follower lines contribute nothing to the matched questions. -/
theorem filterMap_userFollower (rest : List String) :
    (userFollower rest).filterMap questionOf = [] := by
  cases rest with
  | nil => rfl
  | cons next rest2 =>
      by_cases hu : strStartsWith next "User:" = true
      · simp [userFollower, hu, questionOf_user next hu]
      · simp [userFollower, hu]

/-- The loop output is a sublist of its input lines, by strong induction on
the length, because the emitted follower line is the head of the remaining
input. -/
theorem fkqLoop_sublist_len :
    ∀ (n : Nat) (lines found : List String), lines.length ≤ n →
      List.Sublist (fkqLoop lines found) lines := by
  intro n
  induction n with
  | zero =>
      intro lines found hlen
      have h0 : lines = [] := List.eq_nil_of_length_eq_zero (Nat.le_zero.mp hlen)
      subst h0
      simp [fkqLoop]
  | succ n ih =>
      intro lines found hlen
      cases lines with
      | nil => simp [fkqLoop]
      | cons line rest =>
          have hr : rest.length ≤ n := by
            simpa using Nat.le_of_succ_le_succ (by simpa using hlen)
          cases hq : questionOf line with
          | none =>
              rw [fkqLoop_cons_none line rest found hq]
              exact List.Sublist.cons line (ih rest found hr)
          | some q =>
              by_cases hf : found.contains q = true
              · rw [fkqLoop_cons_found line rest found q hq hf]
                exact List.Sublist.cons line (ih rest found hr)
              · rw [fkqLoop_cons_new line rest found q hq (Bool.eq_false_iff.mpr hf)]
                apply List.Sublist.cons₂
                cases rest with
                | nil => simp [userFollower, fkqLoop]
                | cons next rest2 =>
                    by_cases hu : strStartsWith next "User:" = true
                    · simp only [userFollower, hu, if_true, List.singleton_append]
                      rw [fkqLoop_cons_none next rest2 (q :: found) (questionOf_user next hu)]
                      apply List.Sublist.cons₂
                      have hr2 : rest2.length ≤ n := Nat.le_of_succ_le (by simpa using hr)
                      exact ih rest2 (q :: found) hr2
                    · simp only [userFollower, hu, Bool.false_eq_true, if_false,
                        List.nil_append]
                      exact ih (next :: rest2) (q :: found) hr

/-- Each question is matched at most once by the loop: the emitted matches
are distinct and avoid the already found set. -/
theorem fkqLoop_nodup_aux :
    ∀ (lines found : List String),
      ((fkqLoop lines found).filterMap questionOf).Nodup
      ∧ ∀ q ∈ found, q ∉ (fkqLoop lines found).filterMap questionOf := by
  intro lines
  induction lines with
  | nil =>
      intro found
      exact ⟨by simp [fkqLoop], fun q _ => by simp [fkqLoop]⟩
  | cons line rest ih =>
      intro found
      cases hq : questionOf line with
      | none =>
          rw [fkqLoop_cons_none line rest found hq]
          exact ih found
      | some q =>
          by_cases hf : found.contains q = true
          · rw [fkqLoop_cons_found line rest found q hq hf]
            exact ih found
          · rw [fkqLoop_cons_new line rest found q hq (Bool.eq_false_iff.mpr hf)]
            have hfm : (line :: (userFollower rest ++ fkqLoop rest (q :: found))).filterMap
                  questionOf
                = q :: (fkqLoop rest (q :: found)).filterMap questionOf := by
              rw [List.filterMap_cons_some hq, List.filterMap_append,
                filterMap_userFollower, List.nil_append]
            rw [hfm]
            obtain ⟨ihn, ihd⟩ := ih (q :: found)
            refine ⟨?_, ?_⟩
            · rw [List.nodup_cons]
              exact ⟨ihd q (List.mem_cons_self q found), ihn⟩
            · intro q2 hq2 hmem
              rcases List.mem_cons.mp hmem with rfl | hmem2
              · exact hf (List.elem_iff.mpr hq2)
              · exact ihd q2 (List.mem_cons_of_mem q hq2) hmem2

/-- Every line emitted by the loop is an AI line matching a question or a
User tagged response. -/
theorem fkqLoop_all_tagged :
    ∀ (lines found : List String),
      (fkqLoop lines found).all
        (fun line => (questionOf line).isSome || strStartsWith line "User:") = true := by
  intro lines
  induction lines with
  | nil => intro found; rfl
  | cons line rest ih =>
      intro found
      cases hq : questionOf line with
      | none =>
          rw [fkqLoop_cons_none line rest found hq]
          exact ih found
      | some q =>
          by_cases hf : found.contains q = true
          · rw [fkqLoop_cons_found line rest found q hq hf]
            exact ih found
          · rw [fkqLoop_cons_new line rest found q hq (Bool.eq_false_iff.mpr hf)]
            rw [List.all_cons, List.all_append]
            have h1 : ((questionOf line).isSome || strStartsWith line "User:") = true := by
              rw [hq]; rfl
            have h2 : (userFollower rest).all
                (fun line => (questionOf line).isSome || strStartsWith line "User:") = true := by
              cases rest with
              | nil => rfl
              | cons next rest2 =>
                  by_cases hu : strStartsWith next "User:" = true
                  · simp [userFollower, hu]
                  · simp [userFollower, hu]
            rw [h1, h2, ih (q :: found)]
            rfl

/-- When the input holds a line matching a question that is neither already
found nor matched by any earlier line, the loop emits exactly that line at
that point, directly followed by its follower lines, and the scan goes on
with the question marked found. -/
theorem fkqLoop_emits :
    ∀ (lines₁ lines₂ found : List String) (aiLine q : String),
      questionOf aiLine = some q → found.contains q = false →
      (∀ l ∈ lines₁, questionOf l ≠ some q) →
      ∃ out₁ found₂,
        fkqLoop (lines₁ ++ aiLine :: lines₂) found
          = out₁ ++ aiLine :: (userFollower lines₂ ++ fkqLoop lines₂ (q :: found₂)) := by
  intro lines₁
  induction lines₁ with
  | nil =>
      intro lines₂ found aiLine q hq hf _
      refine ⟨[], found, ?_⟩
      rw [List.nil_append, List.nil_append]
      exact fkqLoop_cons_new aiLine lines₂ found q hq hf
  | cons a lines₁ ih =>
      intro lines₂ found aiLine q hq hf h₁
      have ha : questionOf a ≠ some q := h₁ a (List.mem_cons_self a lines₁)
      have h₁' : ∀ l ∈ lines₁, questionOf l ≠ some q :=
        fun l hli => h₁ l (List.mem_cons_of_mem a hli)
      rw [List.cons_append]
      cases hqa : questionOf a with
      | none =>
          rw [fkqLoop_cons_none a _ found hqa]
          exact ih lines₂ found aiLine q hq hf h₁'
      | some qa =>
          by_cases hfa : found.contains qa = true
          · rw [fkqLoop_cons_found a _ found qa hqa hfa]
            exact ih lines₂ found aiLine q hq hf h₁'
          · rw [fkqLoop_cons_new a _ found qa hqa (Bool.eq_false_iff.mpr hfa)]
            have hne : qa ≠ q := fun e => ha (e ▸ hqa)
            have hf' : (qa :: found).contains q = false := by
              rw [List.contains_cons]
              rw [beq_eq_false_iff_ne.mpr (fun e => hne e.symm), hf]
              rfl
            obtain ⟨out₁, found₂, heq⟩ := ih lines₂ (qa :: found) aiLine q hq hf' h₁'
            refine ⟨a :: (userFollower (lines₁ ++ aiLine :: lines₂) ++ out₁), found₂, ?_⟩
            rw [heq, List.cons_append, List.append_assoc]

/-- Every emitted line matching a question is the first input line matching
that question: repeat occurrences are never emitted. -/
theorem fkqLoop_find_first :
    ∀ (lines found : List String) (aiLine q : String),
      aiLine ∈ fkqLoop lines found → questionOf aiLine = some q →
      lines.find? (fun l => questionOf l == some q) = some aiLine := by
  intro lines
  induction lines with
  | nil =>
      intro found aiLine q hmem _
      simp [fkqLoop] at hmem
  | cons a rest ih =>
      intro found aiLine q hmem hq
      have hqnotfound : ¬ q ∈ found := by
        intro hqf
        exact (fkqLoop_nodup_aux (a :: rest) found).2 q hqf
          (List.mem_filterMap.mpr ⟨aiLine, hmem, hq⟩)
      cases hqa : questionOf a with
      | none =>
          rw [fkqLoop_cons_none a rest found hqa] at hmem
          rw [List.find?_cons_of_neg _ (by simp [hqa])]
          exact ih found aiLine q hmem hq
      | some qa =>
          by_cases hfa : found.contains qa = true
          · rw [fkqLoop_cons_found a rest found qa hqa hfa] at hmem
            have hne : qa ≠ q := fun e => hqnotfound (e ▸ List.elem_iff.mp hfa)
            rw [List.find?_cons_of_neg _ (by simp [hqa, hne])]
            exact ih found aiLine q hmem hq
          · rw [fkqLoop_cons_new a rest found qa hqa (Bool.eq_false_iff.mpr hfa)] at hmem
            rcases List.mem_cons.mp hmem with rfl | hmem2
            · rw [List.find?_cons_of_pos _ (by simp [hq])]
            · rcases List.mem_append.mp hmem2 with hmemU | hmemR
              · exfalso
                cases rest with
                | nil => simp [userFollower] at hmemU
                | cons next rest2 =>
                    by_cases hu : strStartsWith next "User:" = true
                    · rw [userFollower, if_pos hu] at hmemU
                      have he : aiLine = next := by simpa using hmemU
                      rw [he, questionOf_user next hu] at hq
                      exact Option.noConfusion hq
                    · rw [userFollower, if_neg hu] at hmemU
                      simp at hmemU
              · have hqnot2 : ¬ q ∈ (qa :: found) := by
                  intro hmemq
                  exact (fkqLoop_nodup_aux rest (qa :: found)).2 q hmemq
                    (List.mem_filterMap.mpr ⟨aiLine, hmemR, hq⟩)
                have hne : qa ≠ q := fun e => hqnot2 (e ▸ List.mem_cons_self qa found)
                rw [List.find?_cons_of_neg _ (by simp [hqa, hne])]
                exact ih (qa :: found) aiLine q hmemR hq

/-- C1: on the scenario transcript the extraction returns exactly the first
AI and User pair. In general, over every transcript: the emitted lines form a
sublist of the transcript lines (transcript order is preserved and dropped
lines stay dropped), the matched questions are pairwise distinct (each
canonical question is captured at most once), every emitted line is an AI
line matching a question or a User tagged response, the first AI line
matching a question is always emitted, with the directly following User
tagged line emitted right after it when present, and every emitted matching
line is that first occurrence, so repeat occurrences are never emitted. -/
theorem filterKeyQuestions_spec :
    filterKeyQuestions
        "AI: How are you feeling?\nUser: Okay I guess\nAI: unrelated\nAI: How are you feeling?\nUser: still okay"
      = "AI: How are you feeling?\nUser: Okay I guess"
    ∧ (∀ transcript : String,
        List.Sublist (fkqLoop (splitNl transcript) []) (splitNl transcript))
    ∧ (∀ transcript : String,
        ((fkqLoop (splitNl transcript) []).filterMap questionOf).Nodup)
    ∧ (∀ transcript : String,
        (fkqLoop (splitNl transcript) []).all
          (fun line => (questionOf line).isSome || strStartsWith line "User:") = true)
    ∧ (∀ (transcript : String) (lines₁ lines₂ : List String) (aiLine userLine q : String),
        splitNl transcript = lines₁ ++ aiLine :: userLine :: lines₂ →
        questionOf aiLine = some q →
        (∀ l ∈ lines₁, questionOf l ≠ some q) →
        strStartsWith userLine "User:" = true →
        ∃ out₁ out₂,
          fkqLoop (splitNl transcript) [] = out₁ ++ aiLine :: userLine :: out₂)
    ∧ (∀ (transcript : String) (lines₁ lines₂ : List String) (aiLine q : String),
        splitNl transcript = lines₁ ++ aiLine :: lines₂ →
        questionOf aiLine = some q →
        (∀ l ∈ lines₁, questionOf l ≠ some q) →
        ∃ out₁ out₂,
          fkqLoop (splitNl transcript) [] = out₁ ++ aiLine :: out₂)
    ∧ (∀ (transcript : String) (aiLine q : String),
        aiLine ∈ fkqLoop (splitNl transcript) [] → questionOf aiLine = some q →
        (splitNl transcript).find? (fun l => questionOf l == some q) = some aiLine) := by
  refine ⟨by decide, fun t => ?_, fun t => (fkqLoop_nodup_aux (splitNl t) []).1,
    fun t => fkqLoop_all_tagged (splitNl t) [], ?_, ?_, ?_⟩
  · exact fkqLoop_sublist_len (splitNl t).length (splitNl t) [] (Nat.le_refl _)
  · intro t lines₁ lines₂ aiLine userLine q hsplit hq h₁ hu
    rw [hsplit]
    obtain ⟨out₁, found₂, heq⟩ :=
      fkqLoop_emits lines₁ (userLine :: lines₂) [] aiLine q hq rfl h₁
    refine ⟨out₁, fkqLoop (userLine :: lines₂) (q :: found₂), ?_⟩
    rw [heq, userFollower, if_pos hu, List.singleton_append]
  · intro t lines₁ lines₂ aiLine q hsplit hq h₁
    rw [hsplit]
    obtain ⟨out₁, found₂, heq⟩ := fkqLoop_emits lines₁ lines₂ [] aiLine q hq rfl h₁
    exact ⟨out₁, userFollower lines₂ ++ fkqLoop lines₂ (q :: found₂), heq⟩
  · intro t aiLine q hmem hq
    exact fkqLoop_find_first (splitNl t) [] aiLine q hmem hq

end TrevorDashboard
